import Mathlib

/-!
Shallow embedding of the statistical core of the NLP-Corpus-Analyzer
repository (class CorpusAnalyzer in main.py).

Modelling conventions:
* External NLTK tokenization is abstracted: a corpus is supplied already
  tokenized, as a list of sentences, each a list of word tokens; the
  whole-text word tokenization feeding `all_words` is the concatenation of
  the per-sentence token lists.
* Python numbers are modelled as rationals; division by zero, which raises
  ZeroDivisionError in Python (for both int and float operands), is
  modelled with `Except`.
* `collections.Counter` lookups (`c[x]` returns 0 for missing keys, never
  raising) are modelled by `List.count` over the underlying token list;
  `x in c` is membership in that list.  In every state produced by
  `__init__`, `clear_data`, `process_text` and `calculate_statistics` the
  two Counters equal `Counter(all_words)` / `Counter(all_bigrams)`, so the
  counts are represented as derived views of the stored lists.
* `functools.lru_cache` on the two smoothed-probability methods is
  modelled as an association list threaded through the state (`memoU`,
  `memoB`).  For the single analyzer instance the cache key reduces to the
  method argument.  The cache is never cleared by `clear_data`, exactly as
  in the source.  The `maxsize=1024` eviction policy is not modelled; no
  claim depends on eviction.
* `self._denominator_cache` is a dict holding either both keys "unigram"
  and "bigram_base" (set together by `process_text` and
  `calculate_statistics`) or neither (the `__init__` value `{}`, untouched
  by `clear_data`); it is modelled as an `Option` of the pair.
-/

/-- Python exceptions that the modelled code can raise. -/
inductive PyErr : Type where
  | zeroDivisionError : PyErr
  | keyError : PyErr
deriving DecidableEq, Repr

/-- Python division: raises ZeroDivisionError on a zero divisor, otherwise
returns the exact quotient. -/
def pydiv (a b : ℚ) : Except PyErr ℚ :=
  if b = 0 then .error .zeroDivisionError else .ok (a / b)

/-- The sentence-start boundary token. -/
def startTok : String := "<s>"

/-- The sentence-end boundary token. -/
def endTok : String := "</s>"

/-- `self.smoothing_k = 0.5` -/
def smoothing_k : ℚ := 1/2

/-- The analyzer's data fields (UI widgets omitted).  `sentences` holds the
tokenized sentences; `all_words` is the flat token stream; `all_bigrams`
is the padded per-sentence bigram stream; `denomCache` models
`_denominator_cache`; `memoU`/`memoB` model the lru_cache of
`get_unigram_prob_smooth` / `get_bigram_prob_smooth`. -/
structure AnalyzerState : Type where
  sentences : List (List String)
  all_words : List String
  all_bigrams : List (String × String)
  denomCache : Option (ℚ × ℚ)
  memoU : List (String × ℚ)
  memoB : List ((String × String) × ℚ)
deriving DecidableEq, Repr

/-- `self.word_occurrence[w]`: the Counter built from `all_words`. -/
def word_occurrence (st : AnalyzerState) (w : String) : ℕ :=
  st.all_words.count w

/-- `self.bigram_occurrence[b]`: the Counter built from `all_bigrams`. -/
def bigram_occurrence (st : AnalyzerState) (b : String × String) : ℕ :=
  st.all_bigrams.count b

/-- `len(self.unique_words)` where `unique_words = set(all_words)`. -/
def vocabSize (st : AnalyzerState) : ℕ :=
  st.all_words.dedup.length

/-- The data fields as set by `__init__`. -/
def initState : AnalyzerState :=
  { sentences := [], all_words := [], all_bigrams := [],
    denomCache := none, memoU := [], memoB := [] }

/-- `clear_data`: empties the sentence list, the token stream (hence the
vocabulary and the unigram table) and the bigram stream (hence the bigram
table).  It does NOT touch `_denominator_cache` and never calls
`cache_clear()` on the lru_cache-decorated methods, so `denomCache`,
`memoU` and `memoB` survive, exactly as in the source. -/
def clear_data (st : AnalyzerState) : AnalyzerState :=
  { st with sentences := [], all_words := [], all_bigrams := [] }

/-- Consecutive pairs, as `nltk.bigrams`. -/
def bigramsOf (l : List String) : List (String × String) :=
  l.zip l.tail

/-- `pad_both_ends(ws, n=2)`: one start marker before, one end marker after. -/
def pad_both_ends (ws : List String) : List String :=
  startTok :: ws ++ [endTok]

/-- `["<s>", "</s>"] * n`: the flat block of boundary tokens appended to the
word stream by `process_text`. -/
def specialTokens (n : ℕ) : List String :=
  (List.replicate n [startTok, endTok]).flatten

/-- `process_bigrams`: per sentence, pad with one start and one end marker
and take consecutive pairs; concatenate over sentences. -/
def process_bigrams (inp : List (List String)) : List (String × String) :=
  (inp.map fun s => bigramsOf (pad_both_ends s)).flatten

/-- The flat token stream `all_words` produced by `process_text` from the
tokenized input: whole-text word tokens followed by `2 * len(sentences)`
boundary tokens in bulk. -/
def allWordsOf (inp : List (List String)) : List String :=
  inp.flatten ++ specialTokens inp.length

/-- Vocabulary size of the processed input. -/
def vocabOf (inp : List (List String)) : ℕ :=
  (allWordsOf inp).dedup.length

/-- The "unigram" entry of `_denominator_cache`: `N + k * V`. -/
def udenOf (inp : List (List String)) : ℚ :=
  ((allWordsOf inp).length : ℚ) + smoothing_k * (vocabOf inp : ℚ)

/-- The "bigram_base" entry of `_denominator_cache`: `k * (V - 2)`. -/
def bbaseOf (inp : List (List String)) : ℚ :=
  smoothing_k * ((vocabOf inp : ℚ) - 2)

/-- `process_text` on tokenized input: store the sentences, build
`all_words` (words plus bulk boundary tokens), refresh the denominator
cache from the new stream, and rebuild the bigram stream.  The memoized
probability caches are not touched. -/
def process_text (inp : List (List String)) (st : AnalyzerState) : AnalyzerState :=
  { st with
    sentences := inp
    all_words := allWordsOf inp
    denomCache := some (udenOf inp, bbaseOf inp)
    all_bigrams := process_bigrams inp }

/-- `calculate_statistics`: recompute the two Counters (a no-op on the
derived views) and the denominator cache from the current streams. -/
def calculate_statistics (st : AnalyzerState) : AnalyzerState :=
  { st with
    denomCache := some
      (((st.all_words.length : ℚ) + smoothing_k * (st.all_words.dedup.length : ℚ)),
       smoothing_k * ((st.all_words.dedup.length : ℚ) - 2)) }

/-- The analysis pipeline of `analyze_file` after the file has been read
and found non-empty: `clear_data` then `process_text` then
`calculate_statistics`.  (The subsequent `update_all_tabs` only issues
queries; reading is modelled by the query functions themselves.) -/
def analyze (inp : List (List String)) (st : AnalyzerState) : AnalyzerState :=
  calculate_statistics (process_text inp (clear_data st))

/-- `get_unigram_prob`: `count(w) / len(all_words)`, no guard. -/
def get_unigram_prob (st : AnalyzerState) (w : String) : Except PyErr ℚ :=
  pydiv (word_occurrence st w : ℚ) (st.all_words.length : ℚ)

/-- `get_bigram_prob`: 0 when the context is missing or has count 0
(`bigram[0] not in word_occurrence or word_occurrence[bigram[0]] == 0` is
equivalent to `count(bigram[0]) = 0` for a Counter), else the ratio of
counts.  The `except KeyError` handler is unreachable (Counter lookups do
not raise). -/
def get_bigram_prob (st : AnalyzerState) (b : String × String) : Except PyErr ℚ :=
  if word_occurrence st b.1 = 0 then .ok 0
  else pydiv (bigram_occurrence st b : ℚ) (word_occurrence st b.1 : ℚ)

/-- The body of `get_unigram_prob_smooth` (the computation performed on a
cache miss).  The lookup `self._denominator_cache["unigram"]` raises
KeyError, uncaught, when the dict is empty. -/
def get_unigram_prob_smooth_compute (st : AnalyzerState) (w : String) :
    Except PyErr ℚ :=
  match st.denomCache with
  | none => .error .keyError
  | some (uden, _) =>
    if w ∈ st.all_words then pydiv ((word_occurrence st w : ℚ) + smoothing_k) uden
    else pydiv smoothing_k uden

/-- The body of `get_bigram_prob_smooth` (the computation performed on a
cache miss).  The KeyError from the dict lookup on a never-analyzed
instance is caught and turned into the return value 1; ZeroDivisionError
is not caught. -/
def get_bigram_prob_smooth_compute (st : AnalyzerState) (b : String × String) :
    Except PyErr ℚ :=
  match st.denomCache with
  | none => .ok 1
  | some (_, bbase) =>
    if bbase = 0 then .ok 0
    else
      if b ∈ st.all_bigrams then
        pydiv ((bigram_occurrence st b : ℚ) + smoothing_k)
          ((word_occurrence st b.1 : ℚ) + bbase)
      else if b.1 ∈ st.all_words then
        pydiv smoothing_k ((word_occurrence st b.1 : ℚ) + bbase)
      else pydiv smoothing_k bbase

/-- First-match lookup in an association list (the lru_cache dictionary). -/
def memoFind {α : Type} [DecidableEq α] (m : List (α × ℚ)) (a : α) : Option ℚ :=
  match m with
  | [] => none
  | (a', v) :: rest => if a = a' then some v else memoFind rest a

/-- `get_unigram_prob_smooth` as seen by callers: serve a memoized value if
present, otherwise run the body and (on normal return) memoize the
result.  Exceptions are not memoized, matching lru_cache. -/
def get_unigram_prob_smooth (st : AnalyzerState) (w : String) :
    Except PyErr ℚ × AnalyzerState :=
  match memoFind st.memoU w with
  | some v => (.ok v, st)
  | none =>
    match get_unigram_prob_smooth_compute st w with
    | .ok v => (.ok v, { st with memoU := (w, v) :: st.memoU })
    | .error e => (.error e, st)

/-- `get_bigram_prob_smooth` as seen by callers: memoized wrapper around
the body. -/
def get_bigram_prob_smooth (st : AnalyzerState) (b : String × String) :
    Except PyErr ℚ × AnalyzerState :=
  match memoFind st.memoB b with
  | some v => (.ok v, st)
  | none =>
    match get_bigram_prob_smooth_compute st b with
    | .ok v => (.ok v, { st with memoB := (b, v) :: st.memoB })
    | .error e => (.error e, st)

/-- The list comprehension of `find_prob_of_sentence`:
`[(big, self.get_bigram_prob_smooth(big)) for big in sentence_bigrams]`,
threading the memo cache left to right; an exception aborts the whole
call. -/
def scoreBigrams (st : AnalyzerState) :
    List (String × String) → Except PyErr (List ((String × String) × ℚ) × AnalyzerState)
  | [] => .ok ([], st)
  | b :: rest =>
    match get_bigram_prob_smooth st b with
    | (.ok v, st') =>
      match scoreBigrams st' rest with
      | .ok (l, st'') => .ok ((b, v) :: l, st'')
      | .error e => .error e
    | (.error e, _) => .error e

/-- `find_prob_of_sentence` on a tokenized query sentence: pad, form
consecutive bigrams, score each, and accumulate the product starting from
1 (`prob = 1; for ...: prob *= p`).  Returns the product, the ordered
per-bigram trace, and the updated state. -/
def find_prob_of_sentence (st : AnalyzerState) (ws : List String) :
    Except PyErr (ℚ × List ((String × String) × ℚ) × AnalyzerState) :=
  match scoreBigrams st (bigramsOf (pad_both_ends ws)) with
  | .ok (probs, st') => .ok (probs.foldl (fun a p => a * p.2) 1, probs, st')
  | .error e => .error e

/-- Modelled from the spec (section 4.3): the four-branch definition of the
smoothed bigram probability, written from the spec's words for comparison
with the source function. -/
def smoothedBigram_spec (st : AnalyzerState) (b : String × String) : ℚ :=
  let bbase := smoothing_k * ((vocabSize st : ℚ) - 2)
  if bbase = 0 then 0
  else
    let denom := (word_occurrence st b.1 : ℚ) + bbase
    if 0 < bigram_occurrence st b then ((bigram_occurrence st b : ℚ) + smoothing_k) / denom
    else if 0 < word_occurrence st b.1 then smoothing_k / denom
    else smoothing_k / bbase

/-- Modelled from the spec (section 4.3): the smoothed unigram probability,
written from the spec's words for comparison with the source function. -/
def smoothedUnigram_spec (st : AnalyzerState) (w : String) : ℚ :=
  let uden := (st.all_words.length : ℚ) + smoothing_k * (vocabSize st : ℚ)
  if w ∈ st.all_words then ((word_occurrence st w : ℚ) + smoothing_k) / uden
  else smoothing_k / uden

/-- Modelled from the spec (section 8): the closed formula
`(count(w1,w2)+k) / (count(w1) + k*(V-2))` asserted for seen bigrams. -/
def smoothedBigram_formula (st : AnalyzerState) (b : String × String) : ℚ :=
  ((bigram_occurrence st b : ℚ) + smoothing_k) /
    ((word_occurrence st b.1 : ℚ) + smoothing_k * ((vocabSize st : ℚ) - 2))

/-- Soundness of the mutable caches: memoized smoothed unigram values are
positive, memoized smoothed bigram values are non-negative, and the
denominator cache is either unset or holds a positive unigram denominator
and a non-negative bigram base. -/
def MemoOK (st : AnalyzerState) : Prop :=
  (∀ e ∈ st.memoU, 0 < e.2) ∧ (∀ e ∈ st.memoB, 0 ≤ e.2) ∧
  (st.denomCache = none ∨
    ∃ u bb, st.denomCache = some (u, bb) ∧ 0 < u ∧ 0 ≤ bb)

/-- States reachable by the analyzer: the fresh instance, and closure under
clearing, analyzing a non-empty tokenized corpus (analyze_file rejects
empty text before `process_text` runs), and the two memoizing queries. -/
inductive Reachable : AnalyzerState → Prop where
  | init : Reachable initState
  | clear {st : AnalyzerState} : Reachable st → Reachable (clear_data st)
  | analyzeStep {st : AnalyzerState} (inp : List (List String)) :
      inp ≠ [] → Reachable st → Reachable (analyze inp st)
  | queryU {st : AnalyzerState} (w : String) :
      Reachable st → Reachable (get_unigram_prob_smooth st w).2
  | queryB {st : AnalyzerState} (b : String × String) :
      Reachable st → Reachable (get_bigram_prob_smooth st b).2

/-! Basic facts about the embedded operations. -/

theorem pydiv_of_ne {a b : ℚ} (h : b ≠ 0) : pydiv a b = .ok (a / b) := by
  unfold pydiv
  rw [if_neg h]

theorem pydiv_zero (a : ℚ) : pydiv a 0 = .error .zeroDivisionError := by
  unfold pydiv
  rw [if_pos rfl]

theorem analyze_sentences (inp : List (List String)) (st : AnalyzerState) :
    (analyze inp st).sentences = inp := rfl

theorem analyze_all_words (inp : List (List String)) (st : AnalyzerState) :
    (analyze inp st).all_words = allWordsOf inp := rfl

theorem analyze_all_bigrams (inp : List (List String)) (st : AnalyzerState) :
    (analyze inp st).all_bigrams = process_bigrams inp := rfl

theorem analyze_denomCache (inp : List (List String)) (st : AnalyzerState) :
    (analyze inp st).denomCache = some (udenOf inp, bbaseOf inp) := rfl

theorem analyze_memoU (inp : List (List String)) (st : AnalyzerState) :
    (analyze inp st).memoU = st.memoU := rfl

theorem analyze_memoB (inp : List (List String)) (st : AnalyzerState) :
    (analyze inp st).memoB = st.memoB := rfl

theorem clear_data_all_words (st : AnalyzerState) :
    (clear_data st).all_words = [] := rfl

theorem clear_data_all_bigrams (st : AnalyzerState) :
    (clear_data st).all_bigrams = [] := rfl

theorem clear_data_sentences (st : AnalyzerState) :
    (clear_data st).sentences = [] := rfl

theorem clear_data_denomCache (st : AnalyzerState) :
    (clear_data st).denomCache = st.denomCache := rfl

theorem clear_data_memoU (st : AnalyzerState) :
    (clear_data st).memoU = st.memoU := rfl

theorem clear_data_memoB (st : AnalyzerState) :
    (clear_data st).memoB = st.memoB := rfl

theorem queryU_of_find {st : AnalyzerState} {w : String} {v : ℚ}
    (h : memoFind st.memoU w = some v) :
    get_unigram_prob_smooth st w = (.ok v, st) := by
  unfold get_unigram_prob_smooth
  rw [h]

theorem queryU_of_none_ok {st : AnalyzerState} {w : String} {v : ℚ}
    (h : memoFind st.memoU w = none)
    (hc : get_unigram_prob_smooth_compute st w = .ok v) :
    get_unigram_prob_smooth st w = (.ok v, { st with memoU := (w, v) :: st.memoU }) := by
  unfold get_unigram_prob_smooth
  rw [h, hc]

theorem queryU_of_none_err {st : AnalyzerState} {w : String} {e : PyErr}
    (h : memoFind st.memoU w = none)
    (hc : get_unigram_prob_smooth_compute st w = .error e) :
    get_unigram_prob_smooth st w = (.error e, st) := by
  unfold get_unigram_prob_smooth
  rw [h, hc]

theorem queryB_of_find {st : AnalyzerState} {b : String × String} {v : ℚ}
    (h : memoFind st.memoB b = some v) :
    get_bigram_prob_smooth st b = (.ok v, st) := by
  unfold get_bigram_prob_smooth
  rw [h]

theorem queryB_of_none_ok {st : AnalyzerState} {b : String × String} {v : ℚ}
    (h : memoFind st.memoB b = none)
    (hc : get_bigram_prob_smooth_compute st b = .ok v) :
    get_bigram_prob_smooth st b = (.ok v, { st with memoB := (b, v) :: st.memoB }) := by
  unfold get_bigram_prob_smooth
  rw [h, hc]

theorem queryB_of_none_err {st : AnalyzerState} {b : String × String} {e : PyErr}
    (h : memoFind st.memoB b = none)
    (hc : get_bigram_prob_smooth_compute st b = .error e) :
    get_bigram_prob_smooth st b = (.error e, st) := by
  unfold get_bigram_prob_smooth
  rw [h, hc]

theorem queryU_snd_all_words (st : AnalyzerState) (w : String) :
    ((get_unigram_prob_smooth st w).2).all_words = st.all_words := by
  unfold get_unigram_prob_smooth
  rcases h : memoFind st.memoU w with _ | v
  · rcases hc : get_unigram_prob_smooth_compute st w with e | v <;> rfl
  · rfl

theorem queryU_snd_all_bigrams (st : AnalyzerState) (w : String) :
    ((get_unigram_prob_smooth st w).2).all_bigrams = st.all_bigrams := by
  unfold get_unigram_prob_smooth
  rcases h : memoFind st.memoU w with _ | v
  · rcases hc : get_unigram_prob_smooth_compute st w with e | v <;> rfl
  · rfl

theorem queryU_snd_denomCache (st : AnalyzerState) (w : String) :
    ((get_unigram_prob_smooth st w).2).denomCache = st.denomCache := by
  unfold get_unigram_prob_smooth
  rcases h : memoFind st.memoU w with _ | v
  · rcases hc : get_unigram_prob_smooth_compute st w with e | v <;> rfl
  · rfl

theorem queryU_snd_memoB (st : AnalyzerState) (w : String) :
    ((get_unigram_prob_smooth st w).2).memoB = st.memoB := by
  unfold get_unigram_prob_smooth
  rcases h : memoFind st.memoU w with _ | v
  · rcases hc : get_unigram_prob_smooth_compute st w with e | v <;> rfl
  · rfl

theorem queryB_snd_all_words (st : AnalyzerState) (b : String × String) :
    ((get_bigram_prob_smooth st b).2).all_words = st.all_words := by
  unfold get_bigram_prob_smooth
  rcases h : memoFind st.memoB b with _ | v
  · rcases hc : get_bigram_prob_smooth_compute st b with e | v <;> rfl
  · rfl

theorem queryB_snd_all_bigrams (st : AnalyzerState) (b : String × String) :
    ((get_bigram_prob_smooth st b).2).all_bigrams = st.all_bigrams := by
  unfold get_bigram_prob_smooth
  rcases h : memoFind st.memoB b with _ | v
  · rcases hc : get_bigram_prob_smooth_compute st b with e | v <;> rfl
  · rfl

theorem queryB_snd_denomCache (st : AnalyzerState) (b : String × String) :
    ((get_bigram_prob_smooth st b).2).denomCache = st.denomCache := by
  unfold get_bigram_prob_smooth
  rcases h : memoFind st.memoB b with _ | v
  · rcases hc : get_bigram_prob_smooth_compute st b with e | v <;> rfl
  · rfl

theorem queryB_snd_memoU (st : AnalyzerState) (b : String × String) :
    ((get_bigram_prob_smooth st b).2).memoU = st.memoU := by
  unfold get_bigram_prob_smooth
  rcases h : memoFind st.memoB b with _ | v
  · rcases hc : get_bigram_prob_smooth_compute st b with e | v <;> rfl
  · rfl

theorem uniCompute_congr {s t : AnalyzerState} (h1 : s.all_words = t.all_words)
    (h2 : s.denomCache = t.denomCache) (w : String) :
    get_unigram_prob_smooth_compute s w = get_unigram_prob_smooth_compute t w := by
  unfold get_unigram_prob_smooth_compute word_occurrence
  rw [h1, h2]

theorem biCompute_congr {s t : AnalyzerState} (h1 : s.all_words = t.all_words)
    (h2 : s.all_bigrams = t.all_bigrams) (h3 : s.denomCache = t.denomCache)
    (b : String × String) :
    get_bigram_prob_smooth_compute s b = get_bigram_prob_smooth_compute t b := by
  unfold get_bigram_prob_smooth_compute word_occurrence bigram_occurrence
  rw [h1, h2, h3]

theorem memoFind_eq_none {α : Type} [DecidableEq α] {m : List (α × ℚ)} {a : α}
    (h : a ∉ m.map Prod.fst) : memoFind m a = none := by
  induction m with
  | nil => rfl
  | cons p rest ih =>
    unfold memoFind
    rw [List.map_cons, List.mem_cons] at h
    push_neg at h
    rw [if_neg h.1]
    exact ih h.2

theorem memoFind_mem {α : Type} [DecidableEq α] {m : List (α × ℚ)} {a : α} {v : ℚ}
    (h : memoFind m a = some v) : (a, v) ∈ m := by
  induction m with
  | nil => exact absurd h (by simp [memoFind])
  | cons p rest ih =>
    unfold memoFind at h
    split at h
    · rename_i heq
      rw [Option.some_inj] at h
      subst h
      subst heq
      exact List.mem_cons_self _ _
    · exact List.mem_cons_of_mem _ (ih h)

theorem memoFind_cons_self {α : Type} [DecidableEq α] (m : List (α × ℚ)) (a : α) (v : ℚ) :
    memoFind ((a, v) :: m) a = some v := by
  unfold memoFind
  rw [if_pos rfl]

/-! Shape facts about an analyzed corpus: a non-empty tokenized input puts
both boundary tokens into the token stream, so the vocabulary has at least
two members, the unigram denominator is positive and the bigram base is
non-negative. -/

theorem two_le_length_of_mem_ne {α : Type} {l : List α} {a b : α}
    (ha : a ∈ l) (hb : b ∈ l) (hab : a ≠ b) : 2 ≤ l.length := by
  induction l with
  | nil => cases ha
  | cons c r ih =>
    rcases List.mem_cons.mp ha with rfl | ha'
    · rcases List.mem_cons.mp hb with rfl | hb'
      · exact absurd rfl hab
      · have : 1 ≤ r.length := List.length_pos_of_mem hb'
        simpa using Nat.succ_le_succ this
    · rcases List.mem_cons.mp hb with rfl | hb'
      · have : 1 ≤ r.length := List.length_pos_of_mem ha'
        simpa using Nat.succ_le_succ this
      · have := ih ha' hb'
        simp only [List.length_cons]
        omega

theorem startTok_mem_specialTokens {n : ℕ} (h : n ≠ 0) :
    startTok ∈ specialTokens n := by
  cases n with
  | zero => exact absurd rfl h
  | succ m =>
    unfold specialTokens
    rw [List.replicate_succ, List.flatten_cons]
    exact List.mem_append_left _ (by simp)

theorem endTok_mem_specialTokens {n : ℕ} (h : n ≠ 0) :
    endTok ∈ specialTokens n := by
  cases n with
  | zero => exact absurd rfl h
  | succ m =>
    unfold specialTokens
    rw [List.replicate_succ, List.flatten_cons]
    exact List.mem_append_left _ (by simp)

theorem startTok_mem_allWordsOf {inp : List (List String)} (h : inp ≠ []) :
    startTok ∈ allWordsOf inp := by
  unfold allWordsOf
  exact List.mem_append_right _ (startTok_mem_specialTokens (by simpa using h))

theorem endTok_mem_allWordsOf {inp : List (List String)} (h : inp ≠ []) :
    endTok ∈ allWordsOf inp := by
  unfold allWordsOf
  exact List.mem_append_right _ (endTok_mem_specialTokens (by simpa using h))

theorem two_le_vocabOf {inp : List (List String)} (h : inp ≠ []) :
    2 ≤ vocabOf inp :=
  two_le_length_of_mem_ne (List.mem_dedup.2 (startTok_mem_allWordsOf h))
    (List.mem_dedup.2 (endTok_mem_allWordsOf h)) (by decide)

theorem udenOf_pos {inp : List (List String)} (h : inp ≠ []) :
    0 < udenOf inp := by
  unfold udenOf
  have h1 : 0 < (allWordsOf inp).length :=
    List.length_pos_of_mem (startTok_mem_allWordsOf h)
  have h2 : (0:ℚ) < ((allWordsOf inp).length : ℚ) := by exact_mod_cast h1
  have h3 : (0:ℚ) ≤ smoothing_k * (vocabOf inp : ℚ) := by
    unfold smoothing_k
    positivity
  linarith

theorem bbaseOf_nonneg {inp : List (List String)} (h : inp ≠ []) :
    0 ≤ bbaseOf inp := by
  unfold bbaseOf
  have h1 : (2:ℚ) ≤ (vocabOf inp : ℚ) := by exact_mod_cast two_le_vocabOf h
  have h2 : (0:ℚ) ≤ (vocabOf inp : ℚ) - 2 := by linarith
  unfold smoothing_k
  positivity

/-! Cache-soundness invariant: it holds in the fresh state and is preserved
by every analyzer operation. -/

theorem uniCompute_pos {st : AnalyzerState} {w : String} {v : ℚ}
    (hd : st.denomCache = none ∨
      ∃ u bb, st.denomCache = some (u, bb) ∧ 0 < u ∧ 0 ≤ bb)
    (hc : get_unigram_prob_smooth_compute st w = .ok v) : 0 < v := by
  rcases hd with hd | ⟨u, bb, hd, hu, _⟩
  · simp only [get_unigram_prob_smooth_compute, hd] at hc
    cases hc
  · simp only [get_unigram_prob_smooth_compute, hd] at hc
    have hu' : u ≠ 0 := ne_of_gt hu
    have hk : (0:ℚ) < smoothing_k := by unfold smoothing_k; norm_num
    split at hc
    · rw [pydiv_of_ne hu'] at hc
      rw [Except.ok.injEq] at hc
      subst hc
      apply div_pos _ hu
      have : (0:ℚ) ≤ (word_occurrence st w : ℚ) := by positivity
      linarith
    · rw [pydiv_of_ne hu'] at hc
      rw [Except.ok.injEq] at hc
      subst hc
      exact div_pos hk hu

theorem biCompute_ok {st : AnalyzerState} (b : String × String)
    (hd : st.denomCache = none ∨
      ∃ u bb, st.denomCache = some (u, bb) ∧ 0 < u ∧ 0 ≤ bb) :
    ∃ q, get_bigram_prob_smooth_compute st b = .ok q ∧ 0 ≤ q := by
  have hk : (0:ℚ) < smoothing_k := by unfold smoothing_k; norm_num
  rcases hd with hd | ⟨u, bb, hd, _, hbb⟩
  · refine ⟨1, ?_, by norm_num⟩
    simp only [get_bigram_prob_smooth_compute, hd]
  · simp only [get_bigram_prob_smooth_compute, hd]
    by_cases h0 : bb = 0
    · exact ⟨0, by rw [if_pos h0], le_refl 0⟩
    · have hbb' : 0 < bb := lt_of_le_of_ne hbb (Ne.symm h0)
      have hcw : (0:ℚ) ≤ (word_occurrence st b.1 : ℚ) := by positivity
      have hden : (0:ℚ) < (word_occurrence st b.1 : ℚ) + bb := by linarith
      have hden' : ((word_occurrence st b.1 : ℚ) + bb) ≠ 0 := ne_of_gt hden
      rw [if_neg h0]
      by_cases hmem : b ∈ st.all_bigrams
      · refine ⟨((bigram_occurrence st b : ℚ) + smoothing_k) /
          ((word_occurrence st b.1 : ℚ) + bb), ?_, ?_⟩
        · rw [if_pos hmem, pydiv_of_ne hden']
        · have : (0:ℚ) ≤ (bigram_occurrence st b : ℚ) := by positivity
          apply div_nonneg _ (le_of_lt hden)
          linarith
      · rw [if_neg hmem]
        by_cases hmem1 : b.1 ∈ st.all_words
        · exact ⟨smoothing_k / ((word_occurrence st b.1 : ℚ) + bb),
            by rw [if_pos hmem1, pydiv_of_ne hden'],
            div_nonneg (le_of_lt hk) (le_of_lt hden)⟩
        · exact ⟨smoothing_k / bb,
            by rw [if_neg hmem1, pydiv_of_ne h0],
            div_nonneg (le_of_lt hk) (le_of_lt hbb')⟩

theorem memoOK_queryU {st : AnalyzerState} (h : MemoOK st) (w : String) :
    MemoOK (get_unigram_prob_smooth st w).2 := by
  rcases hm : memoFind st.memoU w with _ | v
  · rcases hc : get_unigram_prob_smooth_compute st w with e | v
    · rw [queryU_of_none_err hm hc]
      exact h
    · rw [queryU_of_none_ok hm hc]
      refine ⟨?_, h.2.1, h.2.2⟩
      intro e he
      rcases List.mem_cons.mp he with rfl | he'
      · exact uniCompute_pos h.2.2 hc
      · exact h.1 e he'
  · rw [queryU_of_find hm]
    exact h

theorem memoOK_queryB {st : AnalyzerState} (h : MemoOK st) (b : String × String) :
    MemoOK (get_bigram_prob_smooth st b).2 := by
  rcases hm : memoFind st.memoB b with _ | v
  · rcases hc : get_bigram_prob_smooth_compute st b with e | v
    · rw [queryB_of_none_err hm hc]
      exact h
    · rw [queryB_of_none_ok hm hc]
      refine ⟨h.1, ?_, h.2.2⟩
      intro e he
      rcases List.mem_cons.mp he with rfl | he'
      · obtain ⟨q, hq, hq0⟩ := biCompute_ok b h.2.2
        rw [hc, Except.ok.injEq] at hq
        exact hq ▸ hq0
      · exact h.2.1 e he'
  · rw [queryB_of_find hm]
    exact h

theorem memoOK_analyze {st : AnalyzerState} {inp : List (List String)}
    (hne : inp ≠ []) (h : MemoOK st) : MemoOK (analyze inp st) := by
  refine ⟨?_, ?_, Or.inr ⟨udenOf inp, bbaseOf inp, analyze_denomCache inp st,
    udenOf_pos hne, bbaseOf_nonneg hne⟩⟩
  · rw [analyze_memoU]
    exact h.1
  · rw [analyze_memoB]
    exact h.2.1

theorem reachable_memoOK {st : AnalyzerState} (h : Reachable st) : MemoOK st := by
  induction h with
  | init => exact ⟨by simp [initState], by simp [initState], Or.inl rfl⟩
  | clear _ ih => exact ih
  | analyzeStep inp hne _ ih => exact memoOK_analyze hne ih
  | queryU w _ ih => exact memoOK_queryU ih w
  | queryB b _ ih => exact memoOK_queryB ih b

/-! Behavior of the smoothed queries on sound and on freshly analyzed
states. -/

theorem biSmooth_ok_of_memoOK {st : AnalyzerState} (h : MemoOK st)
    (b : String × String) :
    ∃ q, (get_bigram_prob_smooth st b).1 = .ok q ∧ 0 ≤ q := by
  rcases hm : memoFind st.memoB b with _ | v
  · obtain ⟨q, hq, hq0⟩ := biCompute_ok b h.2.2
    exact ⟨q, by rw [queryB_of_none_ok hm hq], hq0⟩
  · exact ⟨v, by rw [queryB_of_find hm], h.2.1 _ (memoFind_mem hm)⟩

theorem biSmooth_analyze_spec {st : AnalyzerState} {inp : List (List String)}
    (hne : inp ≠ []) {b : String × String}
    (hfresh : b ∉ st.memoB.map Prod.fst) :
    (get_bigram_prob_smooth (analyze inp st) b).1 =
      .ok (smoothedBigram_spec (analyze inp st) b) := by
  have hm : memoFind (analyze inp st).memoB b = none := by
    rw [analyze_memoB]
    exact memoFind_eq_none hfresh
  have hc : get_bigram_prob_smooth_compute (analyze inp st) b =
      .ok (smoothedBigram_spec (analyze inp st) b) := by
    have hb : smoothing_k * ((vocabSize (analyze inp st) : ℚ) - 2) = bbaseOf inp := rfl
    simp only [get_bigram_prob_smooth_compute, analyze_denomCache,
      smoothedBigram_spec, hb]
    by_cases hb0 : bbaseOf inp = 0
    · rw [if_pos hb0, if_pos hb0]
    · have hbpos : 0 < bbaseOf inp := lt_of_le_of_ne (bbaseOf_nonneg hne) (Ne.symm hb0)
      have hcw : (0:ℚ) ≤ (word_occurrence (analyze inp st) b.1 : ℚ) := by positivity
      have hden : (0:ℚ) < (word_occurrence (analyze inp st) b.1 : ℚ) + bbaseOf inp := by
        linarith
      have hden' : ((word_occurrence (analyze inp st) b.1 : ℚ) + bbaseOf inp) ≠ 0 :=
        ne_of_gt hden
      rw [if_neg hb0, if_neg hb0]
      by_cases hmem : b ∈ (analyze inp st).all_bigrams
      · have hcount : 0 < bigram_occurrence (analyze inp st) b :=
          List.count_pos_iff.2 hmem
        rw [if_pos hmem, if_pos hcount, pydiv_of_ne hden']
      · have hcount : ¬ 0 < bigram_occurrence (analyze inp st) b := by
          rw [Nat.pos_iff_ne_zero, ne_eq, not_not]
          exact List.count_eq_zero.2 hmem
        rw [if_neg hmem, if_neg hcount]
        by_cases hmem1 : b.1 ∈ (analyze inp st).all_words
        · have hcount1 : 0 < word_occurrence (analyze inp st) b.1 :=
            List.count_pos_iff.2 hmem1
          rw [if_pos hmem1, if_pos hcount1, pydiv_of_ne hden']
        · have hcount1 : ¬ 0 < word_occurrence (analyze inp st) b.1 := by
            rw [Nat.pos_iff_ne_zero, ne_eq, not_not]
            exact List.count_eq_zero.2 hmem1
          rw [if_neg hmem1, if_neg hcount1, pydiv_of_ne hb0]
  rw [queryB_of_none_ok hm hc]

theorem uniSmooth_analyze_pos {st : AnalyzerState} (h : MemoOK st)
    {inp : List (List String)} (hne : inp ≠ []) (w : String) :
    ∃ q, (get_unigram_prob_smooth (analyze inp st) w).1 = .ok q ∧ 0 < q ∧
      (w ∉ st.memoU.map Prod.fst → q = smoothedUnigram_spec (analyze inp st) w) := by
  have hd : (analyze inp st).denomCache = some (udenOf inp, bbaseOf inp) :=
    analyze_denomCache inp st
  have hdOK : (analyze inp st).denomCache = none ∨
      ∃ u bb, (analyze inp st).denomCache = some (u, bb) ∧ 0 < u ∧ 0 ≤ bb :=
    Or.inr ⟨udenOf inp, bbaseOf inp, hd, udenOf_pos hne, bbaseOf_nonneg hne⟩
  have hu' : udenOf inp ≠ 0 := ne_of_gt (udenOf_pos hne)
  have hcompute : get_unigram_prob_smooth_compute (analyze inp st) w =
      .ok (smoothedUnigram_spec (analyze inp st) w) := by
    have huden : ((analyze inp st).all_words.length : ℚ) +
        smoothing_k * (vocabSize (analyze inp st) : ℚ) = udenOf inp := rfl
    simp only [get_unigram_prob_smooth_compute, hd, smoothedUnigram_spec, huden]
    by_cases hmem : w ∈ (analyze inp st).all_words
    · rw [if_pos hmem, if_pos hmem, pydiv_of_ne hu']
    · rw [if_neg hmem, if_neg hmem, pydiv_of_ne hu']
  rcases hm : memoFind (analyze inp st).memoU w with _ | v
  · refine ⟨smoothedUnigram_spec (analyze inp st) w, ?_, ?_, fun _ => rfl⟩
    · rw [queryU_of_none_ok hm hcompute]
    · exact uniCompute_pos hdOK hcompute
  · refine ⟨v, by rw [queryU_of_find hm], ?_, ?_⟩
    · have : (w, v) ∈ (analyze inp st).memoU := memoFind_mem hm
      rw [analyze_memoU] at this
      exact h.1 _ this
    · intro hfresh
      have : memoFind (analyze inp st).memoU w = none := by
        rw [analyze_memoU]
        exact memoFind_eq_none hfresh
      rw [this] at hm
      cases hm

/-! Further shared helpers: raw queries on an empty stream, fold/product
bridge, scoring, stability of memoized answers across a rebuild of the
same tables, and one concrete smoothed value. -/

theorem get_unigram_prob_of_empty {st : AnalyzerState} (h : st.all_words = [])
    (w : String) : get_unigram_prob st w = .error .zeroDivisionError := by
  unfold get_unigram_prob word_occurrence
  rw [h]
  simp [pydiv]

theorem get_bigram_prob_of_empty {st : AnalyzerState} (h : st.all_words = [])
    (b : String × String) : get_bigram_prob st b = .ok 0 := by
  unfold get_bigram_prob word_occurrence
  rw [h]
  simp

theorem foldl_mul_snd (l : List ((String × String) × ℚ)) (a : ℚ) :
    l.foldl (fun a p => a * p.2) a = a * (l.map Prod.snd).prod := by
  induction l generalizing a with
  | nil => simp
  | cons p r ih => simp [ih, List.prod_cons, mul_assoc]

theorem scoreBigrams_cons_ok {st st2 : AnalyzerState} {b : String × String}
    {q : ℚ} (hpair : get_bigram_prob_smooth st b = (.ok q, st2))
    (rest : List (String × String)) :
    scoreBigrams st (b :: rest) =
      match scoreBigrams st2 rest with
      | .ok (l, st'') => .ok ((b, q) :: l, st'')
      | .error e => .error e := by
  unfold scoreBigrams
  rw [hpair]
  cases rest <;> rfl

theorem scoreBigrams_ok :
    ∀ (l : List (String × String)) (st : AnalyzerState), MemoOK st →
      ∃ probs st', scoreBigrams st l = .ok (probs, st') ∧
        probs.map Prod.fst = l ∧ MemoOK st' := by
  intro l
  induction l with
  | nil =>
    intro st h
    exact ⟨[], st, rfl, rfl, h⟩
  | cons b rest ih =>
    intro st h
    obtain ⟨q, hq1, _⟩ := biSmooth_ok_of_memoOK h b
    have hpair : get_bigram_prob_smooth st b =
        (.ok q, (get_bigram_prob_smooth st b).2) := by
      rw [← hq1]
    obtain ⟨probs, st3, hs, hmap, hOK3⟩ :=
      ih (get_bigram_prob_smooth st b).2 (memoOK_queryB h b)
    refine ⟨(b, q) :: probs, st3, ?_, by rw [List.map_cons, hmap], hOK3⟩
    rw [scoreBigrams_cons_ok hpair, hs]

theorem queryU_stable {S T : AnalyzerState} (w : String)
    (hw : T.all_words = S.all_words) (hd : T.denomCache = S.denomCache)
    (hm : T.memoU = ((get_unigram_prob_smooth S w).2).memoU) :
    (get_unigram_prob_smooth T w).1 = (get_unigram_prob_smooth S w).1 := by
  rcases hm1 : memoFind S.memoU w with _ | v
  · rcases hc : get_unigram_prob_smooth_compute S w with e | v
    · rw [queryU_of_none_err hm1 hc] at hm ⊢
      have hm' : memoFind T.memoU w = none := by rw [hm]; exact hm1
      have hc' : get_unigram_prob_smooth_compute T w = .error e := by
        rw [uniCompute_congr hw hd, hc]
      rw [queryU_of_none_err hm' hc']
    · rw [queryU_of_none_ok hm1 hc] at hm ⊢
      have hm' : memoFind T.memoU w = some v := by
        rw [hm]
        exact memoFind_cons_self _ _ _
      rw [queryU_of_find hm']
  · rw [queryU_of_find hm1] at hm ⊢
    have hm' : memoFind T.memoU w = some v := by rw [hm]; exact hm1
    rw [queryU_of_find hm']

theorem queryB_stable {S T : AnalyzerState} (b : String × String)
    (hw : T.all_words = S.all_words) (hbg : T.all_bigrams = S.all_bigrams)
    (hd : T.denomCache = S.denomCache)
    (hm : T.memoB = ((get_bigram_prob_smooth S b).2).memoB) :
    (get_bigram_prob_smooth T b).1 = (get_bigram_prob_smooth S b).1 := by
  rcases hm1 : memoFind S.memoB b with _ | v
  · rcases hc : get_bigram_prob_smooth_compute S b with e | v
    · rw [queryB_of_none_err hm1 hc] at hm ⊢
      have hm' : memoFind T.memoB b = none := by rw [hm]; exact hm1
      have hc' : get_bigram_prob_smooth_compute T b = .error e := by
        rw [biCompute_congr hw hbg hd, hc]
      rw [queryB_of_none_err hm' hc']
    · rw [queryB_of_none_ok hm1 hc] at hm ⊢
      have hm' : memoFind T.memoB b = some v := by
        rw [hm]
        exact memoFind_cons_self _ _ _
      rw [queryB_of_find hm']
  · rw [queryB_of_find hm1] at hm ⊢
    have hm' : memoFind T.memoB b = some v := by rw [hm]; exact hm1
    rw [queryB_of_find hm']

theorem compute_the_quarter :
    get_unigram_prob_smooth_compute (analyze [["the","cat"]] initState) "the" =
      .ok (1/4) := by
  have hu : udenOf [["the","cat"]] = 6 := by
    rw [udenOf, show (allWordsOf [["the","cat"]]).length = 4 from rfl,
      show vocabOf [["the","cat"]] = 4 from rfl]
    norm_num [smoothing_k]
  have hmem : "the" ∈ (analyze [["the","cat"]] initState).all_words := by decide
  simp only [get_unigram_prob_smooth_compute, analyze_denomCache]
  rw [if_pos hmem,
    show word_occurrence (analyze [["the","cat"]] initState) "the" = 1 from rfl,
    hu, pydiv_of_ne (by norm_num : (6:ℚ) ≠ 0)]
  norm_num [smoothing_k]

theorem query_the_quarter :
    get_unigram_prob_smooth (analyze [["the","cat"]] initState) "the" =
      (.ok (1/4), { analyze [["the","cat"]] initState with
        memoU := [("the", (1/4 : ℚ))] }) :=
  queryU_of_none_ok rfl compute_the_quarter

/-! Claim theorems. -/

/-- Claim C9: on a CorpusAnalyzer on which no analysis has ever run (the
denominator cache is still the empty dict it is initialized to),
`get_bigram_prob_smooth` returns the constant 1 for every bigram: the
lookup of the missing "bigram_base" key raises KeyError, which the
handler converts into the return value 1 instead of an error. -/
theorem fresh_instance_smoothed_bigram_one (b : String × String) :
    (get_bigram_prob_smooth initState b).1 = .ok 1 := by
  have hm : memoFind initState.memoB b = none := rfl
  have hc : get_bigram_prob_smooth_compute initState b = .ok 1 := rfl
  rw [queryB_of_none_ok hm hc]

/-- Claim C10: `get_unigram_prob` divides count(w) by len(all_words) with
no guard, so for every word, calling it while `all_words` is empty (fresh
instance, or after `clear_data` and before the next analyze) raises a
division-by-zero error rather than returning a probability. -/
theorem unigram_prob_empty_zero_division (st : AnalyzerState) (w : String)
    (h : st.all_words = []) :
    get_unigram_prob st w = .error .zeroDivisionError :=
  get_unigram_prob_of_empty h w

/-- Witness for C10: the query raises ZeroDivisionError on the state
obtained by analyzing a corpus and then clearing. -/
theorem unigram_prob_empty_zero_division_witness :
    get_unigram_prob (clear_data (analyze [["the","cat"]] initState)) "the" =
      .error .zeroDivisionError :=
  unigram_prob_empty_zero_division (clear_data (analyze [["the","cat"]] initState))
    "the" rfl

/-- Claim C3: for every bigram and every analyzed-corpus state (any
reachable state re-analyzed on a non-empty tokenized corpus), the
smoothed bigram query returns a finite, non-negative rational — also when
the context w1 is absent from the unigram table — resolved by the
smoothing branches and never by an error. -/
theorem smoothed_bigram_total_nonneg (st : AnalyzerState) (h : Reachable st)
    (inp : List (List String)) (hne : inp ≠ []) (b : String × String) :
    ∃ q, (get_bigram_prob_smooth (analyze inp st) b).1 = .ok q ∧ 0 ≤ q :=
  biSmooth_ok_of_memoOK (memoOK_analyze hne (reachable_memoOK h)) b

/-- Witness for C3 at a concrete corpus and a bigram whose context is
absent from the table. -/
theorem smoothed_bigram_total_nonneg_witness :
    ∃ q, (get_bigram_prob_smooth (analyze [["the","cat"]] initState)
      ("dog","run")).1 = .ok q ∧ 0 ≤ q :=
  smoothed_bigram_total_nonneg initState Reachable.init [["the","cat"]]
    (by simp) ("dog","run")

/-- Claim C5: on an analyzed corpus, for every bigram not answered from a
pre-existing memo entry, `get_bigram_prob_smooth` implements exactly the
spec's four-branch definition: 0 when the bigram base k*(V-2) is zero,
else (count(w1,w2)+k)/denom for a seen bigram, k/denom for a seen
context, and k/bigramBase for a context never seen, with
denom = count(w1) + bigramBase. -/
theorem smoothed_bigram_four_branch (st : AnalyzerState)
    (inp : List (List String)) (hne : inp ≠ []) (b : String × String)
    (hfresh : b ∉ st.memoB.map Prod.fst) :
    (get_bigram_prob_smooth (analyze inp st) b).1 =
      .ok (smoothedBigram_spec (analyze inp st) b) :=
  biSmooth_analyze_spec hne hfresh

/-- Witness for C5 at a concrete corpus and an unseen bigram with seen
context. -/
theorem smoothed_bigram_four_branch_witness :
    (get_bigram_prob_smooth (analyze [["the","cat"]] initState) ("the","dog")).1 =
      .ok (smoothedBigram_spec (analyze [["the","cat"]] initState) ("the","dog")) :=
  smoothed_bigram_four_branch initState [["the","cat"]] (by simp) ("the","dog")
    (by simp [initState])

/-- Claim C6: for every token, seen or unseen, queried against an analyzed
corpus, the smoothed unigram probability is strictly positive; when the
token is not answered from a pre-existing memo entry it equals
(count(w)+k)/unigramDenominator for vocabulary members and
k/unigramDenominator otherwise. -/
theorem smoothed_unigram_pos (st : AnalyzerState) (h : Reachable st)
    (inp : List (List String)) (hne : inp ≠ []) (w : String) :
    ∃ q, (get_unigram_prob_smooth (analyze inp st) w).1 = .ok q ∧ 0 < q ∧
      (w ∉ st.memoU.map Prod.fst →
        q = smoothedUnigram_spec (analyze inp st) w) :=
  uniSmooth_analyze_pos (reachable_memoOK h) hne w

/-- Witness for C6 at a concrete corpus and an unseen token. -/
theorem smoothed_unigram_pos_witness :
    ∃ q, (get_unigram_prob_smooth (analyze [["the","cat"]] initState) "dog").1
        = .ok q ∧ 0 < q ∧
      ("dog" ∉ initState.memoU.map Prod.fst →
        q = smoothedUnigram_spec (analyze [["the","cat"]] initState) "dog") :=
  smoothed_unigram_pos initState Reachable.init [["the","cat"]] (by simp) "dog"

/-- Counterexample to claim C4: analyzing the corpus of one sentence with
no word tokens gives vocabulary {<s>, </s>} (V = 2), the bigram
(<s>, </s>) is seen once, yet the query returns 0 via the degenerate
`bigram_base == 0` branch while the claimed universal closed formula
gives (1+k)/(1+k*(V-2)) = 3/2. -/
theorem smoothed_bigram_formula_degenerate_cex :
    0 < bigram_occurrence (analyze [[]] initState) (startTok, endTok) ∧
    (get_bigram_prob_smooth (analyze [[]] initState) (startTok, endTok)).1
      = .ok 0 ∧
    smoothedBigram_formula (analyze [[]] initState) (startTok, endTok) = 3/2 ∧
    (get_bigram_prob_smooth (analyze [[]] initState) (startTok, endTok)).1 ≠
      .ok (smoothedBigram_formula (analyze [[]] initState) (startTok, endTok)) := by
  have hb0 : bbaseOf [[]] = 0 := by
    rw [bbaseOf, show vocabOf [[]] = 2 from rfl]
    norm_num
  have hq : (get_bigram_prob_smooth (analyze [[]] initState) (startTok, endTok)).1
      = .ok 0 := by
    have hm : memoFind (analyze [[]] initState).memoB (startTok, endTok) = none := rfl
    have hc : get_bigram_prob_smooth_compute (analyze [[]] initState)
        (startTok, endTok) = .ok 0 := by
      simp only [get_bigram_prob_smooth_compute, analyze_denomCache]
      rw [if_pos hb0]
    rw [queryB_of_none_ok hm hc]
  have hf : smoothedBigram_formula (analyze [[]] initState) (startTok, endTok)
      = 3/2 := by
    unfold smoothedBigram_formula
    rw [show bigram_occurrence (analyze [[]] initState) (startTok, endTok) = 1
        from rfl,
      show word_occurrence (analyze [[]] initState) (startTok, endTok).1 = 1
        from rfl,
      show vocabSize (analyze [[]] initState) = 2 from rfl]
    norm_num [smoothing_k]
  refine ⟨by decide, hq, hf, ?_⟩
  rw [hq, hf]
  intro hcontra
  rw [Except.ok.injEq] at hcontra
  norm_num at hcontra

/-- Claim C4 (amended): on an analyzed corpus, a seen bigram that is not
answered from a pre-existing memo entry satisfies
smoothedBigram(w1,w2) = (count(w1,w2)+k)/(count(w1)+k*(V-2)) whenever the
vocabulary size V differs from 2 (equivalently the bigram base k*(V-2) is
non-zero); in the degenerate case V = 2 the function returns 0 instead. -/
theorem smoothed_bigram_formula_nondegenerate (st : AnalyzerState)
    (inp : List (List String)) (hne : inp ≠ []) (b : String × String)
    (hfresh : b ∉ st.memoB.map Prod.fst)
    (hcount : 0 < bigram_occurrence (analyze inp st) b)
    (hV : vocabOf inp ≠ 2) :
    (get_bigram_prob_smooth (analyze inp st) b).1 =
      .ok (smoothedBigram_formula (analyze inp st) b) := by
  have h3 : 2 < vocabOf inp := lt_of_le_of_ne (two_le_vocabOf hne) (Ne.symm hV)
  have h4 : (2:ℚ) < (vocabOf inp : ℚ) := by exact_mod_cast h3
  have hbb : bbaseOf inp ≠ 0 := by
    rw [bbaseOf]
    unfold smoothing_k
    exact ne_of_gt (mul_pos (by norm_num) (by linarith))
  rw [biSmooth_analyze_spec hne hfresh]
  have hb : smoothing_k * ((vocabSize (analyze inp st) : ℚ) - 2) = bbaseOf inp := rfl
  simp only [smoothedBigram_spec, smoothedBigram_formula, hb]
  rw [if_neg hbb, if_pos hcount]

/-- Witness for the amended C4 at a concrete corpus and its seen bigram
("the", "cat"). -/
theorem smoothed_bigram_formula_nondegenerate_witness :
    (get_bigram_prob_smooth (analyze [["the","cat"]] initState) ("the","cat")).1 =
      .ok (smoothedBigram_formula (analyze [["the","cat"]] initState)
        ("the","cat")) :=
  smoothed_bigram_formula_nondegenerate initState [["the","cat"]] (by simp)
    ("the","cat") (by simp [initState]) (by decide) (by decide)

/-- Counterexample to claim C2: immediately after `clear_data` (and before
any new analyze) the raw bigram query does not fail with an
InputError-class error — it returns the number 0. -/
theorem post_clear_raw_bigram_returns_number :
    get_bigram_prob (clear_data (analyze [["the","cat"]] initState))
      ("nonexistent", "word") = .ok 0 :=
  get_bigram_prob_of_empty rfl ("nonexistent", "word")

/-- Claim C2 (amended): after `clear_data` and before the next analyze no
probability query fails with an InputError-class error: the raw unigram
query raises ZeroDivisionError, the raw bigram query returns the number
0, the smoothed bigram query returns a number, and the smoothed unigram
query returns a number whenever the denominator dict is populated (on a
never-analyzed instance it raises KeyError instead). -/
theorem post_clear_query_behavior (st : AnalyzerState) (h : Reachable st)
    (w : String) (b : String × String) :
    get_unigram_prob (clear_data st) w = .error .zeroDivisionError ∧
    get_bigram_prob (clear_data st) b = .ok 0 ∧
    (∃ q, (get_bigram_prob_smooth (clear_data st) b).1 = .ok q) ∧
    (st.denomCache ≠ none →
      ∃ q, (get_unigram_prob_smooth (clear_data st) w).1 = .ok q) := by
  refine ⟨get_unigram_prob_of_empty rfl w, get_bigram_prob_of_empty rfl b, ?_, ?_⟩
  · obtain ⟨q, hq, _⟩ :=
      biSmooth_ok_of_memoOK (reachable_memoOK (Reachable.clear h)) b
    exact ⟨q, hq⟩
  · intro hdne
    rcases (reachable_memoOK h).2.2 with hnone | ⟨u, bb, hsome, hu, _⟩
    · exact absurd hnone hdne
    · rcases hm : memoFind (clear_data st).memoU w with _ | v
      · have hd2 : (clear_data st).denomCache = some (u, bb) := by
          rw [clear_data_denomCache]
          exact hsome
        have hmem : w ∉ (clear_data st).all_words := by
          rw [clear_data_all_words]
          simp
        have hc : get_unigram_prob_smooth_compute (clear_data st) w =
            .ok (smoothing_k / u) := by
          simp only [get_unigram_prob_smooth_compute, hd2]
          rw [if_neg hmem]
          exact pydiv_of_ne (ne_of_gt hu)
        exact ⟨smoothing_k / u, by rw [queryU_of_none_ok hm hc]⟩
      · exact ⟨v, by rw [queryU_of_find hm]⟩

/-- Witness for the amended C2 on the cleared state of an analyzed
instance. -/
theorem post_clear_query_behavior_witness :
    get_unigram_prob (clear_data (analyze [["the"]] initState)) "x"
        = .error .zeroDivisionError ∧
    get_bigram_prob (clear_data (analyze [["the"]] initState)) ("a","b")
        = .ok 0 ∧
    (∃ q, (get_bigram_prob_smooth (clear_data (analyze [["the"]] initState))
      ("a","b")).1 = .ok q) ∧
    ((analyze [["the"]] initState).denomCache ≠ none →
      ∃ q, (get_unigram_prob_smooth (clear_data (analyze [["the"]] initState))
        "x").1 = .ok q) :=
  post_clear_query_behavior (analyze [["the"]] initState)
    (Reachable.analyzeStep [["the"]] (by simp) Reachable.init) "x" ("a","b")

/-- Claim C1 (code bug): `clear_data` empties the sentence list, the token
stream, the vocabulary and both frequency tables, but never calls
`cache_clear()` on the lru_cache of the smoothed-probability methods:
after analyzing [["the","cat"]] and querying the smoothed unigram
probability of "the" (which is 1/4), clearing leaves the memoized cache
still holding that entry, and the same query issued after the clear is
served the pre-clear value 1/4 from it. -/
theorem clear_data_serves_stale_smoothed_prob :
    (get_unigram_prob_smooth (analyze [["the","cat"]] initState) "the").1
        = .ok (1/4) ∧
    (clear_data (get_unigram_prob_smooth
        (analyze [["the","cat"]] initState) "the").2).all_words = [] ∧
    (clear_data (get_unigram_prob_smooth
        (analyze [["the","cat"]] initState) "the").2).all_bigrams = [] ∧
    (clear_data (get_unigram_prob_smooth
        (analyze [["the","cat"]] initState) "the").2).memoU
        = [("the", (1/4 : ℚ))] ∧
    (get_unigram_prob_smooth (clear_data (get_unigram_prob_smooth
        (analyze [["the","cat"]] initState) "the").2) "the").1 = .ok (1/4) := by
  refine ⟨?_, ?_, ?_, ?_, ?_⟩
  · rw [query_the_quarter]
  · rw [query_the_quarter]
    rfl
  · rw [query_the_quarter]
    rfl
  · rw [query_the_quarter]
    rfl
  · rw [query_the_quarter]
    exact congrArg Prod.fst (queryU_of_find (memoFind_cons_self [] "the" (1/4)))

/-- Claim C7: for every tokenized query sentence issued on a reachable
state, the sentence scorer succeeds and returns the product of the
smoothed bigram probabilities over the consecutive bigrams of the padded
token sequence (one <s> prefix, one </s> suffix), in order, together with
the ordered per-bigram trace; empty tokenization yields the single
boundary bigram (<s>, </s>) and a likelihood equal to that bigram's
smoothed probability, not an error. -/
theorem sentence_score_product_trace (st : AnalyzerState) (h : Reachable st)
    (ws : List String) :
    ∃ probs st', find_prob_of_sentence st ws =
        .ok ((probs.map Prod.snd).prod, probs, st') ∧
      probs.map Prod.fst = bigramsOf (pad_both_ends ws) ∧
      (ws = [] → ∃ v, probs = [((startTok, endTok), v)] ∧
        (get_bigram_prob_smooth st (startTok, endTok)).1 = .ok v) := by
  obtain ⟨probs, st', hs, hmap, _⟩ :=
    scoreBigrams_ok (bigramsOf (pad_both_ends ws)) st (reachable_memoOK h)
  refine ⟨probs, st', ?_, hmap, ?_⟩
  · unfold find_prob_of_sentence
    rw [hs]
    show Except.ok (probs.foldl (fun a p => a * p.2) 1, probs, st') =
      Except.ok ((probs.map Prod.snd).prod, probs, st')
    rw [foldl_mul_snd, one_mul]
  · intro hws
    subst hws
    obtain ⟨q, hq1, _⟩ :=
      biSmooth_ok_of_memoOK (reachable_memoOK h) (startTok, endTok)
    have hpair : get_bigram_prob_smooth st (startTok, endTok) =
        (.ok q, (get_bigram_prob_smooth st (startTok, endTok)).2) := by
      rw [← hq1]
    have hb : bigramsOf (pad_both_ends ([] : List String)) =
        [(startTok, endTok)] := rfl
    have hs2 : scoreBigrams st (bigramsOf (pad_both_ends ([] : List String))) =
        .ok ([((startTok, endTok), q)],
          (get_bigram_prob_smooth st (startTok, endTok)).2) := by
      rw [hb, scoreBigrams_cons_ok hpair]
      rfl
    rw [hs2] at hs
    rw [Except.ok.injEq, Prod.mk.injEq] at hs
    exact ⟨q, hs.1.symm, hq1⟩

/-- Witness for C7 on the fresh instance with an empty tokenization. -/
theorem sentence_score_product_trace_witness :
    ∃ probs st', find_prob_of_sentence initState [] =
        .ok ((probs.map Prod.snd).prod, probs, st') ∧
      probs.map Prod.fst = bigramsOf (pad_both_ends []) ∧
      (([] : List String) = [] → ∃ v, probs = [((startTok, endTok), v)] ∧
        (get_bigram_prob_smooth initState (startTok, endTok)).1 = .ok v) :=
  sentence_score_product_trace initState Reachable.init []

/-- Counterexample to claim C8's cache assertion: the memoization cache is
not invalidated between runs — after a second analyze of the very same
input, the cache still holds the entry memoized while querying during the
first run. -/
theorem memo_cache_persists_across_analyze :
    (analyze [["the","cat"]]
      ((get_unigram_prob_smooth (analyze [["the","cat"]] initState) "the").2)).memoU
      = [("the", (1/4 : ℚ))] := by
  rw [analyze_memoU, query_the_quarter]

/-- Claim C8 (amended): running analyze twice on identical input yields
identical token and bigram streams — hence identical unigram and bigram
frequency tables — and, for every token and bigram key queried between
the runs, identical smoothed probability results on the second run as on
the first.  The memoization cache, however, persists across runs rather
than being invalidated; the results coincide because the rebuilt tables
are identical. -/
theorem analyze_twice_identical_results (st0 : AnalyzerState)
    (inp : List (List String)) (w : String) (b : String × String) :
    (analyze inp (get_bigram_prob_smooth
        ((get_unigram_prob_smooth (analyze inp st0) w).2) b).2).all_words =
      (analyze inp st0).all_words ∧
    (analyze inp (get_bigram_prob_smooth
        ((get_unigram_prob_smooth (analyze inp st0) w).2) b).2).all_bigrams =
      (analyze inp st0).all_bigrams ∧
    (∀ x, word_occurrence (analyze inp (get_bigram_prob_smooth
        ((get_unigram_prob_smooth (analyze inp st0) w).2) b).2) x =
      word_occurrence (analyze inp st0) x) ∧
    (∀ p, bigram_occurrence (analyze inp (get_bigram_prob_smooth
        ((get_unigram_prob_smooth (analyze inp st0) w).2) b).2) p =
      bigram_occurrence (analyze inp st0) p) ∧
    (get_unigram_prob_smooth (analyze inp (get_bigram_prob_smooth
        ((get_unigram_prob_smooth (analyze inp st0) w).2) b).2) w).1 =
      (get_unigram_prob_smooth (analyze inp st0) w).1 ∧
    (get_bigram_prob_smooth (analyze inp (get_bigram_prob_smooth
        ((get_unigram_prob_smooth (analyze inp st0) w).2) b).2) b).1 =
      (get_bigram_prob_smooth
        ((get_unigram_prob_smooth (analyze inp st0) w).2) b).1 := by
  refine ⟨rfl, rfl, fun x => rfl, fun p => rfl, ?_, ?_⟩
  · exact queryU_stable w rfl rfl
      (by simp only [analyze_memoU, queryB_snd_memoU])
  · exact queryB_stable b
      (by simp only [analyze_all_words, queryU_snd_all_words])
      (by simp only [analyze_all_bigrams, queryU_snd_all_bigrams])
      (by simp only [analyze_denomCache, queryU_snd_denomCache])
      (by simp only [analyze_memoB])
